import Mathlib

/-!
# A model of the task registry `task<I, O>` (src/task.hpp)

The class owns an id counter `index_`, a cursor `progress_` and an ordered map
`tasks_` from id to `(input, handler, timer)`.  Every member function runs its
map and cursor manipulation under `tasks_lock_`, so each call is modelled as
one atomic transition of the registry state.  Calls that leave the class (the
worker wake-up, a completion handler, a line on `std::cerr`) are recorded as a
list of events produced by the transition.

Modelling conventions:

* `std::size_t` values are natural numbers.  The transitions in namespace
  `task` take the two increments (`++index_`, `progress_ += 1`) without
  wrap-around and the worker call as returning; they describe the registry
  as long as neither counter stands at `SIZE_MAX` and the worker does not
  throw.  The transitions in namespace `machine` are the same member
  functions with the increment taken modulo `SIZE_MAX + 1` and with the
  exceptional exit of `push` when the unguarded call `worker_()` throws;
  `machine.push_agrees` and `machine.step_agrees` relate the two.
* `std::map` is a list of `(key, value)` pairs kept in ascending key order by
  `map_insert`; `map_find`, `map_lower_bound` and `map_erase` are the
  corresponding member functions.
* `std::function<void(O&&)>` is a value of an arbitrary type `H`; what a call
  of it does is given by a function `behave : H → O → Completion`.
* The `deadline_timer` stored in a record is represented by the number of
  seconds it was armed with; the completion handler given to `async_wait` is
  the transition `task.on_expired`.
-/

/-- How a call of a completion handler ends. -/
inductive Completion where
  /-- The call returns normally. -/
  | returns : Completion
  /-- The call throws an object derived from `std::exception`. -/
  | throws_std (what : String) : Completion
  /-- The call throws something that is not a `std::exception`. -/
  | throws_other : Completion
  deriving DecidableEq, Repr

/-- How a member function that invokes a handler ends. -/
inductive Exit where
  /-- The member function returns to its caller. -/
  | returned : Exit
  /-- An exception leaves the member function. -/
  | propagated : Exit
  deriving DecidableEq, Repr

/-- A call that leaves the registry.  The `id` in `handler` is the key under
which the invoked handler was stored. -/
inductive Event (O H : Type) where
  /-- The call `worker_()`. -/
  | worker : Event O H
  /-- The call `handler(std::move(payload))` of the handler stored under `id`. -/
  | handler (id : Nat) (h : H) (payload : O) : Event O H
  /-- The line written to `std::cerr`. -/
  | cerr (line : String) : Event O H
  deriving DecidableEq, Repr

/-- The mapped type of `tasks_`:
`std::tuple<I, std::function<void(O&&)>, boost::asio::deadline_timer>`. -/
abbrev Record (I H : Type) := I × H × Nat

/-- The type of `tasks_`: `std::map<std::size_t, Record>`. -/
abbrev TaskMap (I H : Type) := List (Nat × Record I H)

section StdMap

variable {I H : Type}

/-- The member `std::map::find`: the entry with key `k`, if any. -/
def map_find (m : TaskMap I H) (k : Nat) : Option (Nat × Record I H) :=
  m.find? (fun e => e.1 == k)

/-- The member `std::map::lower_bound`: the first entry, in key order, whose key
is not less than `k`. -/
def map_lower_bound (m : TaskMap I H) (k : Nat) : Option (Nat × Record I H) :=
  m.find? (fun e => decide (k ≤ e.1))

/-- The member `std::map::erase` at the position found for key `k`. -/
def map_erase (m : TaskMap I H) (k : Nat) : TaskMap I H :=
  m.filter (fun e => e.1 != k)

/-- The member `std::map::insert`: the entry is placed at its position in key
order; when the key is already present the map is left as it is. -/
def map_insert : TaskMap I H → Nat → Record I H → TaskMap I H
  | [], k, v => [(k, v)]
  | e :: m, k, v =>
    if k < e.1 then (k, v) :: e :: m
    else if k = e.1 then e :: m
    else e :: map_insert m k v

/-- The keys of a map, in iteration order. -/
def map_keys (m : TaskMap I H) : List Nat := m.map Prod.fst

/-- The class invariant of `std::map`: keys are strictly ascending. -/
def map_ordered (m : TaskMap I H) : Prop := (map_keys m).Pairwise (fun a b => a < b)

instance (m : TaskMap I H) : Decidable (map_ordered m) :=
  inferInstanceAs (Decidable ((map_keys m).Pairwise (fun a b => a < b)))

end StdMap

/-- The data members of `task<I, O>` that make up the registry state. -/
structure task (I H : Type) where
  /-- The id counter. -/
  index_ : Nat
  /-- The cursor. -/
  progress_ : Nat
  /-- The pending records. -/
  tasks_ : TaskMap I H
  deriving DecidableEq, Repr

/-- What one call of a member function yields: the state it leaves, the calls
it made out of the registry, and its return value. -/
structure Result (I O H ρ : Type) where
  /-- The registry state after the call. -/
  state : task I H
  /-- The calls made out of the registry, in order. -/
  events : List (Event O H)
  /-- The value returned to the caller. -/
  ret : ρ
  deriving DecidableEq, Repr

namespace task

variable {I O H : Type}

/-- The constructor `task::task`: both counters start at zero and the map is empty. -/
def fresh : task I H := ⟨0, 0, []⟩

/-- The member `task::push` for a counter below `SIZE_MAX` and a worker call
that returns; `machine.push` covers the wrap-around of `++index_` and a
worker call that throws. -/
def push (s : task I H) (input : I) (timeout_seconds : Nat) (handler : H) :
    Result I O H Nat :=
  let id := s.index_ + 1
  let trigger_worker := s.tasks_.isEmpty
  let tasks := map_insert s.tasks_ id (input, handler, timeout_seconds)
  ⟨⟨id, s.progress_, tasks⟩, if trigger_worker then [Event.worker] else [], id⟩

/-- The member `task::front`. -/
def front (s : task I H) : Result I O H (Option (Nat × I)) :=
  match map_lower_bound s.tasks_ s.progress_ with
  | some e => ⟨⟨s.index_, e.1, s.tasks_⟩, [], some (e.1, e.2.1)⟩
  | none => ⟨s, [], none⟩

/-- The member `task::step` for a cursor below `SIZE_MAX`; `machine.step`
covers the wrap-around of `progress_ += 1`. -/
def step (s : task I H) : Result I O H Unit :=
  ⟨⟨s.index_, s.progress_ + 1, s.tasks_⟩, [], ()⟩

/-- The member `task::cancel`; the returned value is the caller's id handle
after the call (the argument is passed by reference). -/
def cancel (s : task I H) (id : Nat) : Result I O H Nat :=
  if id ≠ 0 then
    match map_find s.tasks_ id with
    | some _ => ⟨⟨s.index_, s.progress_, map_erase s.tasks_ id⟩, [], 0⟩
    | none => ⟨s, [], 0⟩
  else ⟨s, [], id⟩

/-- The member `task::respond`. -/
def respond (behave : H → O → Completion) (s : task I H) (id : Nat) (payload : O) :
    Result I O H Exit :=
  match map_find s.tasks_ id with
  | some e =>
    let handler := e.2.2.1
    let erased : task I H := ⟨s.index_, s.progress_, map_erase s.tasks_ id⟩
    match behave handler payload with
    | Completion.returns => ⟨erased, [Event.handler id handler payload], Exit.returned⟩
    | Completion.throws_std what =>
      ⟨erased, [Event.handler id handler payload, Event.cerr ("Error: " ++ what)],
        Exit.returned⟩
    | Completion.throws_other => ⟨erased, [Event.handler id handler payload], Exit.propagated⟩
  | none => ⟨s, [], Exit.returned⟩

/-- The completion handler that `task::push` gives to `expired.async_wait`;
`ec` tells whether the error code is set. -/
def on_expired [Inhabited O] (behave : H → O → Completion) (s : task I H) (id : Nat)
    (ec : Bool) : Result I O H Exit :=
  if !ec then respond behave s id default else ⟨s, [], Exit.returned⟩

end task

/-- One call made on a registry from outside. -/
inductive Op (I O H : Type) where
  /-- The call `push(input, timeout_seconds, handler)`. -/
  | push (input : I) (timeout_seconds : Nat) (handler : H) : Op I O H
  /-- The call `front()`. -/
  | front : Op I O H
  /-- The call `step()`. -/
  | step : Op I O H
  /-- The call `cancel(id)`. -/
  | cancel (id : Nat) : Op I O H
  /-- The call `respond(id, payload)`. -/
  | respond (id : Nat) (payload : O) : Op I O H
  /-- The timer service runs the wait handler of the timer armed for `id`. -/
  | expired (id : Nat) (ec : Bool) : Op I O H
  deriving DecidableEq, Repr

/-- The value a call hands back to its caller. -/
inductive Ret (I : Type) where
  /-- The id returned by `push`. -/
  | id (n : Nat) : Ret I
  /-- The optional pair returned by `front`. -/
  | view (v : Option (Nat × I)) : Ret I
  /-- The return of `step`. -/
  | unit : Ret I
  /-- The caller's id handle after `cancel`. -/
  | handle (n : Nat) : Ret I
  /-- The way `respond` or a wait handler ended. -/
  | exit (e : Exit) : Ret I
  deriving DecidableEq, Repr

/-- One entry of a run: the call, the events it produced, and what it returned. -/
structure Step (I O H : Type) where
  /-- The call. -/
  op : Op I O H
  /-- The calls it made out of the registry. -/
  events : List (Event O H)
  /-- Its return value. -/
  ret : Ret I
  deriving DecidableEq, Repr

namespace task

variable {I O H : Type} [Inhabited O]

/-- Dispatch of one call to the member function it names. -/
def apply (behave : H → O → Completion) (s : task I H) : Op I O H → Result I O H (Ret I)
  | Op.push input timeout_seconds handler =>
    let r : Result I O H Nat := push s input timeout_seconds handler
    ⟨r.state, r.events, Ret.id r.ret⟩
  | Op.front =>
    let r : Result I O H (Option (Nat × I)) := front s
    ⟨r.state, r.events, Ret.view r.ret⟩
  | Op.step =>
    let r : Result I O H Unit := step s
    ⟨r.state, r.events, Ret.unit⟩
  | Op.cancel id =>
    let r : Result I O H Nat := cancel s id
    ⟨r.state, r.events, Ret.handle r.ret⟩
  | Op.respond id payload =>
    let r := respond behave s id payload
    ⟨r.state, r.events, Ret.exit r.ret⟩
  | Op.expired id ec =>
    let r := on_expired behave s id ec
    ⟨r.state, r.events, Ret.exit r.ret⟩

/-- The state after a sequence of calls. -/
def final (behave : H → O → Completion) : task I H → List (Op I O H) → task I H
  | s, [] => s
  | s, op :: ops => final behave (apply behave s op).state ops

/-- The record of a sequence of calls, one entry per call. -/
def trace (behave : H → O → Completion) : task I H → List (Op I O H) → List (Step I O H)
  | _, [] => []
  | s, op :: ops =>
    let r := apply behave s op
    ⟨op, r.events, r.ret⟩ :: trace behave r.state ops

end task

/-- The number of times the handler stored under `id` is invoked in a list of events. -/
def calls_of {O H : Type} (id : Nat) : List (Event O H) → Nat
  | [] => 0
  | Event.handler k _ _ :: es => (if k = id then 1 else 0) + calls_of id es
  | _ :: es => calls_of id es

/-- The number of times the handler stored under `id` is invoked in a run. -/
def total_calls {I O H : Type} (id : Nat) : List (Step I O H) → Nat
  | [] => 0
  | st :: sts => calls_of id st.events + total_calls id sts

/-- The ids returned by the `push` calls of a run, in order. -/
def pushed_ids {I O H : Type} : List (Step I O H) → List Nat
  | [] => []
  | ⟨Op.push _ _ _, _, Ret.id n⟩ :: sts => n :: pushed_ids sts
  | _ :: sts => pushed_ids sts

/-- The number of worker wake-ups in a list of events. -/
def wake_calls {O H : Type} : List (Event O H) → Nat
  | [] => 0
  | Event.worker :: es => 1 + wake_calls es
  | _ :: es => wake_calls es

/-- Whether a call completes or cancels the task `id`: a cancel or a respond
aimed at `id`, or the wait handler of its timer run without error. -/
def targets {I O H : Type} (id : Nat) : Op I O H → Bool
  | Op.cancel k => k == id
  | Op.respond k _ => k == id
  | Op.expired k ec => k == id && !ec
  | _ => false

/-- Every pending id lies between 1 and the id counter. -/
def ids_allocated {I H : Type} (s : task I H) : Prop :=
  ∀ e ∈ s.tasks_, 1 ≤ e.1 ∧ e.1 ≤ s.index_

instance {I H : Type} (s : task I H) : Decidable (ids_allocated s) :=
  inferInstanceAs (Decidable (∀ e ∈ s.tasks_, 1 ≤ e.1 ∧ e.1 ≤ s.index_))

/-- A registry reached after three pushes, a completion of id 2 and a step:
ids 1 and 3 are pending and the cursor stands at 2. -/
def sample_registry : task String String :=
  ⟨3, 2, [(1, "a", "h1", 5), (3, "c", "h3", 5)]⟩

/-- Handlers for the sample registry: the one named `h3` throws a
`std::exception`, every other one returns. -/
def sample_behave : String → Nat → Completion :=
  fun h _ => if h = "h3" then Completion.throws_std "boom" else Completion.returns

/-- The calls that lead from a freshly constructed registry to the sample
registry. -/
def sample_run : List (Op String Nat String) :=
  [Op.push "a" 5 "h1", Op.push "b" 5 "h2", Op.push "c" 5 "h3", Op.front, Op.respond 2 7,
   Op.step]

/-- The push calls that submit the given `(input, timeout_seconds, handler)`
triples one after the other. -/
def push_ops {I O H : Type} (ps : List (I × Nat × H)) : List (Op I O H) :=
  ps.map (fun p => Op.push p.1 p.2.1 p.2.2)

/-- The records stored for the given `(input, timeout_seconds, handler)`
triples when they get consecutive ids from `start` on. -/
def records_from {I H : Type} : Nat → List (I × Nat × H) → TaskMap I H
  | _, [] => []
  | start, p :: ps => (start, p.1, p.2.2, p.2.1) :: records_from (start + 1) ps

/-- The events of a run, in order. -/
def run_events {I O H : Type} : List (Step I O H) → List (Event O H)
  | [] => []
  | st :: sts => st.events ++ run_events sts

namespace task

variable {I O H : Type}

/-- The part of `task::respond` that runs under `tasks_lock_`: the lookup, the
move of the handler out of the record and the erase.  It yields the handler
and the state in which the lock is released, or nothing when the id is
absent. -/
def respond_locked (s : task I H) (id : Nat) : Option (H × task I H) :=
  match map_find s.tasks_ id with
  | some e => some (e.2.2.1, ⟨s.index_, s.progress_, map_erase s.tasks_ id⟩)
  | none => none

/-- The member `task::respond` with a handler that calls back into the
registry.  `script h payload` lists the calls the handler `h` makes on the
registry while it runs; since the handler is invoked after the lock has been
released, these calls act on the state left by `respond_locked`.  Handlers
invoked by the nested calls are taken not to call back themselves. -/
def respond_reentrant [Inhabited O] (behave : H → O → Completion)
    (script : H → O → List (Op I O H)) (s : task I H) (id : Nat) (payload : O) :
    Result I O H Exit :=
  match respond_locked s id with
  | some (handler, unlocked) =>
    let after := final behave unlocked (script handler payload)
    let called := Event.handler id handler payload ::
      run_events (trace behave unlocked (script handler payload))
    match behave handler payload with
    | Completion.returns => ⟨after, called, Exit.returned⟩
    | Completion.throws_std what =>
      ⟨after, called ++ [Event.cerr ("Error: " ++ what)], Exit.returned⟩
    | Completion.throws_other => ⟨after, called, Exit.propagated⟩
  | none => ⟨s, [], Exit.returned⟩

end task

/-- Handlers that all throw an object that is not a `std::exception`. -/
def sample_raise : String → Nat → Completion :=
  fun _ _ => Completion.throws_other

/-- The value of the macro `SIZE_MAX` for a 64-bit `std::size_t`. -/
def SIZE_MAX_64 : Nat := 18446744073709551615

namespace machine

variable {I O H : Type}

/-- The increment of a `std::size_t` whose largest value is `max`: it wraps
from `max` to 0.  The width of `std::size_t` is fixed by the platform, not by
the source, so `max` is a parameter of the machine transitions. -/
def increment (max : Nat) (n : Nat) : Nat := (n + 1) % (max + 1)

/-- The member `task::push` with `++index_` taken as a `std::size_t`
increment and with the call `worker_()` as it stands in the source, outside
any `try`: `wake id` tells how the worker call made by the push that
allocated `id` ends.  When it throws, the exception leaves `push` after the
insertion and no id is returned (`none`). -/
def push (max : Nat) (wake : Nat → Completion) (s : task I H) (input : I)
    (timeout_seconds : Nat) (handler : H) : Result I O H (Option Nat) :=
  let id := increment max s.index_
  let trigger_worker := s.tasks_.isEmpty
  let tasks := map_insert s.tasks_ id (input, handler, timeout_seconds)
  if trigger_worker then
    match wake id with
    | Completion.returns => ⟨⟨id, s.progress_, tasks⟩, [Event.worker], some id⟩
    | Completion.throws_std _ => ⟨⟨id, s.progress_, tasks⟩, [Event.worker], none⟩
    | Completion.throws_other => ⟨⟨id, s.progress_, tasks⟩, [Event.worker], none⟩
  else ⟨⟨id, s.progress_, tasks⟩, [], some id⟩

/-- The member `task::step` with `progress_ += 1` taken as a `std::size_t`
increment. -/
def step (max : Nat) (s : task I H) : Result I O H Unit :=
  ⟨⟨s.index_, increment max s.progress_, s.tasks_⟩, [], ()⟩

/-- Dispatch of one call to the member function it names, with the machine
versions of `push` and `step`.  A push that is left by an exception hands
back `Ret.exit Exit.propagated` instead of an id. -/
def apply [Inhabited O] (max : Nat) (wake : Nat → Completion) (behave : H → O → Completion)
    (s : task I H) : Op I O H → Result I O H (Ret I)
  | Op.push input timeout_seconds handler =>
    let r : Result I O H (Option Nat) := push max wake s input timeout_seconds handler
    match r.ret with
    | some id => ⟨r.state, r.events, Ret.id id⟩
    | none => ⟨r.state, r.events, Ret.exit Exit.propagated⟩
  | Op.front =>
    let r : Result I O H (Option (Nat × I)) := task.front s
    ⟨r.state, r.events, Ret.view r.ret⟩
  | Op.step =>
    let r : Result I O H Unit := step max s
    ⟨r.state, r.events, Ret.unit⟩
  | Op.cancel id =>
    let r : Result I O H Nat := task.cancel s id
    ⟨r.state, r.events, Ret.handle r.ret⟩
  | Op.respond id payload =>
    let r := task.respond behave s id payload
    ⟨r.state, r.events, Ret.exit r.ret⟩
  | Op.expired id ec =>
    let r := task.on_expired behave s id ec
    ⟨r.state, r.events, Ret.exit r.ret⟩

/-- The state after a sequence of calls. -/
def final [Inhabited O] (max : Nat) (wake : Nat → Completion) (behave : H → O → Completion) :
    task I H → List (Op I O H) → task I H
  | s, [] => s
  | s, op :: ops => final max wake behave (apply max wake behave s op).state ops

/-- The record of a sequence of calls, one entry per call. -/
def trace [Inhabited O] (max : Nat) (wake : Nat → Completion) (behave : H → O → Completion) :
    task I H → List (Op I O H) → List (Step I O H)
  | _, [] => []
  | s, op :: ops =>
    let r := apply max wake behave s op
    ⟨op, r.events, r.ret⟩ :: trace max wake behave r.state ops

/-- Whether some `step` of the run is taken with the cursor at `max` or
beyond, that is, whether the cursor wraps during the run. -/
def cursor_wraps [Inhabited O] (max : Nat) (wake : Nat → Completion)
    (behave : H → O → Completion) : task I H → List (Op I O H) → Bool
  | _, [] => false
  | s, op :: ops =>
    (match op with
      | Op.step => decide (max ≤ s.progress_)
      | _ => false) ||
    cursor_wraps max wake behave (apply max wake behave s op).state ops

end machine

/-- A worker whose every call throws. -/
def sample_wake_throws : Nat → Completion :=
  fun _ => Completion.throws_other

/-- A worker whose every call returns. -/
def sample_wake : Nat → Completion :=
  fun _ => Completion.returns

/-- A registry whose id counter stands at `SIZE_MAX` while id 1 is pending. -/
def sample_at_max : task String String :=
  ⟨SIZE_MAX_64, SIZE_MAX_64, [(1, "a", "h1", 5)]⟩

/-- A run on the sample registry with two steps, a push and fronts. -/
def sample_steps : List (Op String Nat String) :=
  [Op.step, Op.front, Op.push "d" 1 "h4", Op.step, Op.front, Op.respond 1 0]

/-! ## Facts about the map operations -/

section MapLemmas

variable {I H : Type}

theorem map_find_some {m : TaskMap I H} {k : Nat} {e : Nat × Record I H}
    (h : map_find m k = some e) : e ∈ m ∧ e.1 = k := by
  unfold map_find at h
  exact ⟨List.mem_of_find?_eq_some h, by simpa using List.find?_some h⟩

theorem map_find_none {m : TaskMap I H} {k : Nat} :
    map_find m k = none ↔ ∀ e ∈ m, e.1 ≠ k := by
  unfold map_find
  simp [List.find?_eq_none]

theorem map_find_isSome_of_mem {m : TaskMap I H} {e : Nat × Record I H} (h : e ∈ m) :
    ∃ e', map_find m e.1 = some e' := by
  cases hf : map_find m e.1 with
  | some e' => exact ⟨e', rfl⟩
  | none => exact absurd rfl (map_find_none.mp hf e h)

theorem mem_map_erase {m : TaskMap I H} {k : Nat} {e : Nat × Record I H} :
    e ∈ map_erase m k ↔ e ∈ m ∧ e.1 ≠ k := by
  unfold map_erase
  simp [List.mem_filter]

theorem map_erase_absent {m : TaskMap I H} {k : Nat} (h : ∀ e ∈ m, e.1 ≠ k) :
    map_erase m k = m := by
  unfold map_erase
  rw [List.filter_eq_self]
  intro e he
  simpa using h e he

theorem map_erase_ordered {m : TaskMap I H} (k : Nat) (h : map_ordered m) :
    map_ordered (map_erase m k) := by
  unfold map_ordered map_keys map_erase at *
  rw [List.pairwise_map] at *
  exact h.sublist (List.filter_sublist m)

theorem map_insert_fresh_length {m : TaskMap I H} {k : Nat} {v : Record I H}
    (h : ∀ e ∈ m, e.1 ≠ k) : (map_insert m k v).length = m.length + 1 := by
  induction m with
  | nil => simp [map_insert]
  | cons a m ih =>
    have ha : a.1 ≠ k := h a (List.mem_cons_self _ _)
    have hm : ∀ e ∈ m, e.1 ≠ k := fun e he => h e (List.mem_cons_of_mem _ he)
    unfold map_insert
    by_cases hlt : k < a.1
    · simp [hlt]
    · have hne : ¬ k = a.1 := fun hk => ha hk.symm
      simp [hlt, hne, ih hm]

theorem map_insert_above {m : TaskMap I H} {k : Nat} (v : Record I H)
    (h : ∀ e ∈ m, e.1 < k) : map_insert m k v = m ++ [(k, v)] := by
  induction m with
  | nil => simp [map_insert]
  | cons a m ih =>
    have ha : a.1 < k := h a (List.mem_cons_self _ _)
    have hm : ∀ e ∈ m, e.1 < k := fun e he => h e (List.mem_cons_of_mem _ he)
    unfold map_insert
    have h1 : ¬ k < a.1 := by omega
    have h2 : ¬ k = a.1 := by omega
    simp [h1, h2, ih hm]

theorem map_insert_mem_keys {m : TaskMap I H} {k : Nat} {v : Record I H}
    {e : Nat × Record I H} (h : e ∈ map_insert m k v) : e ∈ m ∨ e = (k, v) := by
  induction m with
  | nil => simpa [map_insert] using h
  | cons a m ih =>
    unfold map_insert at h
    by_cases hlt : k < a.1
    · simp only [hlt, if_true, List.mem_cons] at h
      rcases h with h | h | h
      · exact Or.inr h
      · exact Or.inl (by simp [h])
      · exact Or.inl (by simp [h])
    · by_cases heq : k = a.1
      · simp only [hlt, heq, if_false, if_true] at h
        exact Or.inl (by simpa [heq] using h)
      · simp only [hlt, heq, if_false, List.mem_cons] at h
        rcases h with h | h
        · exact Or.inl (by simp [h])
        · rcases ih h with h' | h'
          · exact Or.inl (List.mem_cons_of_mem _ h')
          · exact Or.inr h'

theorem map_insert_ordered {m : TaskMap I H} (k : Nat) (v : Record I H)
    (h : map_ordered m) : map_ordered (map_insert m k v) := by
  induction m with
  | nil => simp [map_insert, map_ordered, map_keys]
  | cons a m ih =>
    have hm : map_ordered m := by
      unfold map_ordered map_keys at *
      exact (List.pairwise_cons.mp h).2
    have hlow : ∀ e ∈ m, a.1 < e.1 := by
      unfold map_ordered map_keys at h
      intro e he
      exact (List.pairwise_cons.mp h).1 e.1 (List.mem_map_of_mem _ he)
    unfold map_insert
    by_cases hlt : k < a.1
    · simp only [hlt, if_true]
      unfold map_ordered map_keys at *
      simp only [List.map_cons, List.pairwise_cons] at *
      refine ⟨?_, h⟩
      intro x hx
      rcases List.mem_cons.mp hx with hx' | hx'
      · subst hx'; exact hlt
      · exact lt_trans hlt (h.1 x hx')
    · by_cases heq : k = a.1
      · simp only [hlt, heq, if_false, if_true]
        simpa [heq] using h
      · simp only [hlt, heq, if_false]
        have ih' := ih hm
        unfold map_ordered map_keys at *
        simp only [List.map_cons, List.pairwise_cons]
        refine ⟨?_, ih'⟩
        intro x hx
        rcases List.mem_map.mp hx with ⟨e, he, rfl⟩
        rcases map_insert_mem_keys he with he' | he'
        · exact hlow e he'
        · subst he'; simp only; omega

theorem map_lower_bound_some {m : TaskMap I H} {p : Nat} {e : Nat × Record I H}
    (hord : map_ordered m) (h : map_lower_bound m p = some e) :
    e ∈ m ∧ p ≤ e.1 ∧ ∀ e' ∈ m, p ≤ e'.1 → e.1 ≤ e'.1 := by
  induction m with
  | nil => simp [map_lower_bound] at h
  | cons a m ih =>
    have hm : map_ordered m := by
      unfold map_ordered map_keys at *
      exact (List.pairwise_cons.mp hord).2
    have hlow : ∀ x ∈ m, a.1 < x.1 := by
      unfold map_ordered map_keys at hord
      intro x hx
      exact (List.pairwise_cons.mp hord).1 x.1 (List.mem_map_of_mem _ hx)
    unfold map_lower_bound at h
    by_cases hp : p ≤ a.1
    · simp only [List.find?_cons, hp, decide_True] at h
      cases h
      refine ⟨List.mem_cons_self _ _, hp, ?_⟩
      intro e' he' _
      rcases List.mem_cons.mp he' with he' | he'
      · simp [he']
      · exact le_of_lt (hlow e' he')
    · simp only [List.find?_cons, hp, decide_False] at h
      obtain ⟨h1, h2, h3⟩ := ih hm h
      refine ⟨List.mem_cons_of_mem _ h1, h2, ?_⟩
      intro e' he' hpe
      rcases List.mem_cons.mp he' with he' | he'
      · subst he'; exact absurd hpe hp
      · exact h3 e' he' hpe

theorem map_lower_bound_none {m : TaskMap I H} {p : Nat} :
    map_lower_bound m p = none ↔ ∀ e ∈ m, e.1 < p := by
  unfold map_lower_bound
  simp [List.find?_eq_none]

end MapLemmas

/-! ## Invariants of the reachable states -/

section Invariants

variable {I O H : Type}

theorem fresh_ordered : map_ordered (task.fresh : task I H).tasks_ := by
  simp [task.fresh, map_ordered, map_keys]

theorem respond_state (behave : H → O → Completion) (s : task I H) (id : Nat) (payload : O) :
    (task.respond behave s id payload).state = ⟨s.index_, s.progress_, map_erase s.tasks_ id⟩ := by
  unfold task.respond
  cases hf : map_find s.tasks_ id with
  | none =>
    have := map_erase_absent (map_find_none.mp hf)
    simp [this]
  | some e =>
    simp only
    cases behave e.2.2.1 payload <;> rfl

theorem cancel_state (s : task I H) (id : Nat) (h0 : id ≠ 0) :
    (task.cancel s id : Result I O H Nat).state =
      ⟨s.index_, s.progress_, map_erase s.tasks_ id⟩ := by
  unfold task.cancel
  cases hf : map_find s.tasks_ id with
  | none =>
    have := map_erase_absent (map_find_none.mp hf)
    simp [h0, this]
  | some e => simp [h0]

theorem front_state (s : task I H) :
    (task.front s : Result I O H (Option (Nat × I))).state.tasks_ = s.tasks_ ∧
    (task.front s : Result I O H (Option (Nat × I))).state.index_ = s.index_ := by
  unfold task.front
  cases map_lower_bound s.tasks_ s.progress_ <;> simp

theorem apply_index [Inhabited O] (behave : H → O → Completion) (s : task I H)
    (op : Op I O H) :
    (task.apply behave s op).state.index_ =
      match op with
      | Op.push _ _ _ => s.index_ + 1
      | _ => s.index_ := by
  cases op with
  | push input t h => simp [task.apply, task.push]
  | front => simp only [task.apply]; exact (front_state s).2
  | step => simp [task.apply, task.step]
  | cancel id =>
    simp only [task.apply]
    by_cases h0 : id = 0
    · simp [task.cancel, h0]
    · rw [cancel_state s id h0]
  | respond id payload => simp only [task.apply]; rw [respond_state]
  | expired id ec =>
    simp only [task.apply, task.on_expired]
    cases ec
    · simp only [Bool.not_false, if_true]; rw [respond_state]
    · simp

theorem apply_index_le [Inhabited O] (behave : H → O → Completion) (s : task I H)
    (op : Op I O H) : s.index_ ≤ (task.apply behave s op).state.index_ := by
  rw [apply_index]
  cases op <;> simp

theorem apply_tasks_mem [Inhabited O] (behave : H → O → Completion) (s : task I H)
    (op : Op I O H) (e : Nat × Record I H)
    (he : e ∈ (task.apply behave s op).state.tasks_) :
    e ∈ s.tasks_ ∨
      (e.1 = s.index_ + 1 ∧ (task.apply behave s op).state.index_ = s.index_ + 1) := by
  cases op with
  | push input t h =>
    simp only [task.apply, task.push] at he
    rcases map_insert_mem_keys he with h1 | h1
    · exact Or.inl h1
    · exact Or.inr (by simp [h1, task.apply, task.push])
  | front =>
    simp only [task.apply] at he
    rw [(front_state s).1] at he
    exact Or.inl he
  | step => exact Or.inl (by simpa [task.apply, task.step] using he)
  | cancel id =>
    simp only [task.apply] at he
    by_cases h0 : id = 0
    · exact Or.inl (by simpa [task.cancel, h0] using he)
    · rw [cancel_state s id h0] at he
      exact Or.inl (mem_map_erase.mp he).1
  | respond id payload =>
    simp only [task.apply] at he
    rw [respond_state] at he
    exact Or.inl (mem_map_erase.mp he).1
  | expired id ec =>
    simp only [task.apply, task.on_expired] at he
    cases ec
    · simp only [Bool.not_false, if_true] at he
      rw [respond_state] at he
      exact Or.inl (mem_map_erase.mp he).1
    · exact Or.inl (by simpa using he)

theorem apply_ids_allocated [Inhabited O] (behave : H → O → Completion) (s : task I H)
    (op : Op I O H) (h : ids_allocated s) : ids_allocated (task.apply behave s op).state := by
  intro e he
  have hle := apply_index_le behave s op
  rcases apply_tasks_mem behave s op e he with h1 | ⟨h1, h2⟩
  · have := h e h1
    omega
  · omega

theorem final_ids_allocated [Inhabited O] (behave : H → O → Completion) (s : task I H)
    (ops : List (Op I O H)) (h : ids_allocated s) :
    ids_allocated (task.final behave s ops) := by
  induction ops generalizing s with
  | nil => exact h
  | cons op ops ih => exact ih _ (apply_ids_allocated behave s op h)

theorem apply_ordered [Inhabited O] (behave : H → O → Completion) (s : task I H)
    (op : Op I O H) (h : map_ordered s.tasks_) :
    map_ordered (task.apply behave s op).state.tasks_ := by
  cases op with
  | push input t hd =>
    simp only [task.apply, task.push]
    exact map_insert_ordered _ _ h
  | front => simp only [task.apply]; rw [(front_state s).1]; exact h
  | step => simpa [task.apply, task.step] using h
  | cancel id =>
    simp only [task.apply]
    by_cases h0 : id = 0
    · simpa [task.cancel, h0] using h
    · rw [cancel_state s id h0]; exact map_erase_ordered id h
  | respond id payload =>
    simp only [task.apply]; rw [respond_state]; exact map_erase_ordered id h
  | expired id ec =>
    simp only [task.apply, task.on_expired]
    cases ec
    · simp only [Bool.not_false, if_true]; rw [respond_state]; exact map_erase_ordered id h
    · simpa using h

theorem final_ordered [Inhabited O] (behave : H → O → Completion) (s : task I H)
    (ops : List (Op I O H)) (h : map_ordered s.tasks_) :
    map_ordered (task.final behave s ops).tasks_ := by
  induction ops generalizing s with
  | nil => exact h
  | cons op ops ih => exact ih _ (apply_ordered behave s op h)

end Invariants

/-! ## Completion happens at most once -/

section AtMostOnce

variable {I O H : Type}

theorem respond_calls (behave : H → O → Completion) (s : task I H) (k : Nat) (payload : O)
    (id : Nat) :
    calls_of id (task.respond behave s k payload).events =
      if k = id ∧ (map_find s.tasks_ k).isSome then 1 else 0 := by
  unfold task.respond
  cases hf : map_find s.tasks_ k with
  | none => simp [calls_of]
  | some e =>
    simp only
    cases behave e.2.2.1 payload <;> simp [calls_of]

end AtMostOnce

/-- Claim C3 (postcondition of front).  In a registry whose map is in key
order: if some pending id is at least `progress_`, front returns the record
with the smallest such id together with its input and moves `progress_` to
that id; otherwise it returns nothing and leaves `progress_` alone.  Either
way the pending records and the id counter are unchanged and nothing is
called. -/
theorem front_postcondition {I O H : Type} (s : task I H) (hord : map_ordered s.tasks_) :
    ((∃ e ∈ s.tasks_, s.progress_ ≤ e.1) →
      ∃ e ∈ s.tasks_, s.progress_ ≤ e.1 ∧ (∀ e' ∈ s.tasks_, s.progress_ ≤ e'.1 → e.1 ≤ e'.1) ∧
        (task.front s : Result I O H (Option (Nat × I))).ret = some (e.1, e.2.1) ∧
        (task.front s : Result I O H (Option (Nat × I))).state.progress_ = e.1) ∧
    ((¬ ∃ e ∈ s.tasks_, s.progress_ ≤ e.1) →
      (task.front s : Result I O H (Option (Nat × I))).ret = none ∧
      (task.front s : Result I O H (Option (Nat × I))).state.progress_ = s.progress_) ∧
    (task.front s : Result I O H (Option (Nat × I))).state.tasks_ = s.tasks_ ∧
    (task.front s : Result I O H (Option (Nat × I))).state.index_ = s.index_ ∧
    (task.front s : Result I O H (Option (Nat × I))).events = [] := by
  unfold task.front
  cases hlb : map_lower_bound s.tasks_ s.progress_ with
  | none =>
    have hall := map_lower_bound_none.mp hlb
    refine ⟨?_, ?_, rfl, rfl, rfl⟩
    · rintro ⟨e, he, hp⟩
      exact absurd (hall e he) (by omega)
    · intro _
      exact ⟨rfl, rfl⟩
  | some e =>
    obtain ⟨hmem, hp, hmin⟩ := map_lower_bound_some hord hlb
    refine ⟨?_, ?_, rfl, rfl, rfl⟩
    · intro _
      exact ⟨e, hmem, hp, hmin, rfl, rfl⟩
    · intro hno
      exact absurd ⟨e, hmem, hp⟩ hno

/-- Witness for C3 on the sample registry, whose cursor is at 2 while ids 1 and
3 are pending. -/
theorem front_postcondition_witness :
    map_ordered sample_registry.tasks_ ∧
    (((∃ e ∈ sample_registry.tasks_, sample_registry.progress_ ≤ e.1) →
      ∃ e ∈ sample_registry.tasks_, sample_registry.progress_ ≤ e.1 ∧
        (∀ e' ∈ sample_registry.tasks_, sample_registry.progress_ ≤ e'.1 → e.1 ≤ e'.1) ∧
        (task.front sample_registry : Result String Nat String (Option (Nat × String))).ret =
          some (e.1, e.2.1) ∧
        (task.front sample_registry :
          Result String Nat String (Option (Nat × String))).state.progress_ = e.1) ∧
    ((¬ ∃ e ∈ sample_registry.tasks_, sample_registry.progress_ ≤ e.1) →
      (task.front sample_registry : Result String Nat String (Option (Nat × String))).ret =
        none ∧
      (task.front sample_registry :
        Result String Nat String (Option (Nat × String))).state.progress_ =
          sample_registry.progress_) ∧
    (task.front sample_registry :
      Result String Nat String (Option (Nat × String))).state.tasks_ = sample_registry.tasks_ ∧
    (task.front sample_registry :
      Result String Nat String (Option (Nat × String))).state.index_ = sample_registry.index_ ∧
    (task.front sample_registry :
      Result String Nat String (Option (Nat × String))).events = []) :=
  ⟨by decide, front_postcondition sample_registry (by decide)⟩

section RespondLemmas

variable {I O H : Type}

theorem map_ordered_tail {a : Nat × Record I H} {m : TaskMap I H}
    (h : map_ordered (a :: m)) : map_ordered m ∧ ∀ x ∈ m, a.1 < x.1 := by
  unfold map_ordered map_keys at *
  rw [List.map_cons, List.pairwise_cons] at h
  exact ⟨h.2, fun x hx => h.1 x.1 (List.mem_map_of_mem _ hx)⟩

theorem map_ordered_unique {m : TaskMap I H} (h : map_ordered m) {e e' : Nat × Record I H}
    (he : e ∈ m) (he' : e' ∈ m) (hk : e.1 = e'.1) : e = e' := by
  induction m with
  | nil => simp at he
  | cons a m ih =>
    obtain ⟨hm, hlow⟩ := map_ordered_tail h
    rcases List.mem_cons.mp he with h1 | h1 <;> rcases List.mem_cons.mp he' with h2 | h2
    · rw [h1, h2]
    · have := hlow e' h2
      rw [h1] at hk
      omega
    · have := hlow e h1
      rw [h2] at hk
      omega
    · exact ih hm h1 h2

theorem map_erase_length {m : TaskMap I H} (h : map_ordered m) {e : Nat × Record I H}
    (he : e ∈ m) : (map_erase m e.1).length + 1 = m.length := by
  induction m with
  | nil => simp at he
  | cons a m ih =>
    obtain ⟨hm, hlow⟩ := map_ordered_tail h
    rcases List.mem_cons.mp he with h1 | h1
    · subst h1
      have habs : ∀ x ∈ m, x.1 ≠ e.1 := by
        intro x hx
        have := hlow x hx
        omega
      have hrest := map_erase_absent habs
      unfold map_erase at hrest ⊢
      rw [List.filter_cons]
      simp only [bne_self_eq_false, Bool.false_eq_true, if_false, hrest, List.length_cons]
    · have hne : a.1 ≠ e.1 := by
        have := hlow e h1
        omega
      have ih' := ih hm h1
      unfold map_erase at *
      simp only [List.filter_cons, bne_iff_ne, ne_eq, hne, not_false_eq_true, decide_True,
        if_true, List.length_cons]
      omega

theorem respond_events (behave : H → O → Completion) (s : task I H) (id : Nat) (payload : O)
    (e : Nat × Record I H) (hf : map_find s.tasks_ id = some e) :
    ∃ log, (task.respond behave s id payload).events =
        Event.handler id e.2.2.1 payload :: log ∧
      ∀ ev ∈ log, ∃ line, ev = Event.cerr line := by
  unfold task.respond
  simp only [hf]
  cases behave e.2.2.1 payload with
  | returns => exact ⟨[], rfl, by simp⟩
  | throws_std what => exact ⟨[Event.cerr ("Error: " ++ what)], rfl, by simp⟩
  | throws_other => exact ⟨[], rfl, by simp⟩

theorem map_find_of_mem {m : TaskMap I H} (h : map_ordered m) {e : Nat × Record I H}
    (he : e ∈ m) : map_find m e.1 = some e := by
  obtain ⟨e', he'⟩ := map_find_isSome_of_mem he
  obtain ⟨hmem, hk⟩ := map_find_some he'
  rw [he', map_ordered_unique h hmem he hk]

end RespondLemmas

/-- Claim C4 (postcondition of respond on a pending id).  In a registry whose
map is in key order and which holds a record under `id`, `respond(id, payload)`
removes exactly that record, calls the handler stored in it once, first, with
the given payload, and calls nothing else: the only other events are lines
on `std::cerr`, so no other handler and no worker wake-up.  Every other record,
`progress_` and `index_` are unchanged. -/
theorem respond_postcondition {I O H : Type} (behave : H → O → Completion) (s : task I H)
    (id : Nat) (payload : O) (input : I) (handler : H) (timer : Nat)
    (hord : map_ordered s.tasks_) (hmem : (id, input, handler, timer) ∈ s.tasks_) :
    (∀ e, e ∈ (task.respond behave s id payload).state.tasks_ ↔
      e ∈ s.tasks_ ∧ e ≠ (id, input, handler, timer)) ∧
    (task.respond behave s id payload).state.tasks_ =
      s.tasks_.filter (fun e => e.1 != id) ∧
    (task.respond behave s id payload).state.tasks_.length + 1 = s.tasks_.length ∧
    (∃ log, (task.respond behave s id payload).events =
        Event.handler id handler payload :: log ∧
      ∀ ev ∈ log, ∃ line, ev = Event.cerr line) ∧
    calls_of id (task.respond behave s id payload).events = 1 ∧
    (task.respond behave s id payload).state.progress_ = s.progress_ ∧
    (task.respond behave s id payload).state.index_ = s.index_ := by
  have hf := map_find_of_mem hord hmem
  refine ⟨?_, by rw [respond_state]; rfl, ?_, ?_, ?_, ?_, ?_⟩
  · intro e
    rw [respond_state]
    simp only [mem_map_erase]
    constructor
    · rintro ⟨h1, h2⟩
      exact ⟨h1, fun heq => h2 (by rw [heq])⟩
    · rintro ⟨h1, h2⟩
      exact ⟨h1, fun hk => h2 (map_ordered_unique hord h1 hmem hk)⟩
  · rw [respond_state]
    exact map_erase_length hord hmem
  · exact respond_events behave s id payload _ hf
  · rw [respond_calls]
    simp [hf]
  · rw [respond_state]
  · rw [respond_state]

/-- Witness for C4: completing id 3 of the sample registry, whose handler
throws a `std::exception`. -/
theorem respond_postcondition_witness :
    map_ordered sample_registry.tasks_ ∧ (3, "c", "h3", 5) ∈ sample_registry.tasks_ ∧
    (task.respond sample_behave sample_registry 3 9).state = ⟨3, 2, [(1, "a", "h1", 5)]⟩ ∧
    (∃ log, (task.respond sample_behave sample_registry 3 9).events =
        Event.handler 3 "h3" 9 :: log ∧
      ∀ ev ∈ log, ∃ line, ev = Event.cerr line) :=
  ⟨by decide, by decide, by decide,
    (respond_postcondition sample_behave sample_registry 3 9 "c" "h3" 5 (by decide)
      (by decide)).2.2.2.1⟩

/-- Claim C5 (unknown id is a silent no-op).  When no record is stored under
`id`, `respond(id, payload)` and `cancel(id)` leave the whole state (pending
records, `progress_`, `index_`) as it was and produce no event at all: no
handler call, no wake-up, no line on `std::cerr`; `respond` returns normally. -/
theorem unknown_id_noop {I O H : Type} (behave : H → O → Completion) (s : task I H)
    (id : Nat) (payload : O) (habs : ∀ e ∈ s.tasks_, e.1 ≠ id) :
    task.respond behave s id payload = ⟨s, [], Exit.returned⟩ ∧
    (task.cancel s id : Result I O H Nat).state = s ∧
    (task.cancel s id : Result I O H Nat).events = [] := by
  have hf := map_find_none.mpr habs
  refine ⟨?_, ?_, ?_⟩
  · unfold task.respond
    simp [hf]
  · unfold task.cancel
    by_cases h0 : id = 0 <;> simp [h0, hf]
  · unfold task.cancel
    by_cases h0 : id = 0 <;> simp [h0, hf]

/-- Witness for C5: id 2 of the sample registry has already been completed. -/
theorem unknown_id_noop_witness :
    (∀ e ∈ sample_registry.tasks_, e.1 ≠ 2) ∧
    task.respond sample_behave sample_registry 2 9 = ⟨sample_registry, [], Exit.returned⟩ ∧
    (task.cancel sample_registry 2 : Result String Nat String Nat).state = sample_registry ∧
    (task.cancel sample_registry 2 : Result String Nat String Nat).events = [] :=
  ⟨by decide, unknown_id_noop sample_behave sample_registry 2 9 (by decide)⟩

section WakeLemmas

variable {I O H : Type}

theorem map_insert_ne_nil (m : TaskMap I H) (k : Nat) (v : Record I H) :
    (map_insert m k v).isEmpty = false := by
  cases m with
  | nil => rfl
  | cons a m =>
    unfold map_insert
    by_cases h1 : k < a.1
    · simp [h1]
    · by_cases h2 : k = a.1 <;> simp [h1, h2]

theorem respond_wake (behave : H → O → Completion) (s : task I H) (id : Nat) (payload : O) :
    wake_calls (task.respond behave s id payload).events = 0 := by
  unfold task.respond
  cases map_find s.tasks_ id with
  | none => rfl
  | some e =>
    simp only
    cases behave e.2.2.1 payload <;> rfl

end WakeLemmas

/-- Claim C7 (edge-triggered wake).  A call of push wakes the worker exactly
once when the map was empty just before the insertion and not at all
otherwise; every other call (front, step, cancel, respond, timer firing)
never wakes it.  In particular a push that directly follows a push wakes
nobody, the first task being still pending. -/
theorem edge_triggered_wake {I O H : Type} [Inhabited O] (behave : H → O → Completion)
    (s : task I H) (op : Op I O H) :
    wake_calls (task.apply behave s op).events =
      (match op with
       | Op.push _ _ _ => if s.tasks_.isEmpty then 1 else 0
       | _ => 0) ∧
    ∀ (input input' : I) (timeout timeout' : Nat) (handler handler' : H),
      wake_calls (task.push (task.push s input timeout handler : Result I O H Nat).state
        input' timeout' handler' : Result I O H Nat).events = 0 := by
  constructor
  · cases op with
    | push input t h =>
      simp only [task.apply, task.push]
      cases s.tasks_.isEmpty <;> simp [wake_calls]
    | front =>
      simp only [task.apply, task.front]
      cases map_lower_bound s.tasks_ s.progress_ <;> simp [wake_calls]
    | step => simp [task.apply, task.step, wake_calls]
    | cancel k =>
      simp only [task.apply, task.cancel]
      by_cases h0 : k = 0
      · simp [h0, wake_calls]
      · cases map_find s.tasks_ k <;> simp [h0, wake_calls]
    | respond k payload => simpa only [task.apply] using respond_wake behave s k payload
    | expired k ec =>
      cases ec
      · simpa only [task.apply, task.on_expired, Bool.not_false, if_true]
          using respond_wake behave s k default
      · simp [task.apply, task.on_expired, wake_calls]
  · intro input input' timeout timeout' handler handler'
    simp only [task.push, map_insert_ne_nil]
    simp [wake_calls]

section TimeoutLemmas

variable {I O H : Type}

end TimeoutLemmas

section Retrieval

variable {I O H : Type}

theorem final_append [Inhabited O] (behave : H → O → Completion) (s : task I H)
    (xs ys : List (Op I O H)) :
    task.final behave s (xs ++ ys) = task.final behave (task.final behave s xs) ys := by
  induction xs generalizing s with
  | nil => rfl
  | cons x xs ih =>
    show task.final behave (task.apply behave s x).state (xs ++ ys) = _
    exact ih _

theorem final_pushes [Inhabited O] (behave : H → O → Completion) (s : task I H)
    (ps : List (I × Nat × H)) (hs : ∀ e ∈ s.tasks_, e.1 ≤ s.index_) :
    task.final behave s (push_ops ps) =
      ⟨s.index_ + ps.length, s.progress_, s.tasks_ ++ records_from (s.index_ + 1) ps⟩ := by
  induction ps generalizing s with
  | nil => simp [push_ops, task.final, records_from]
  | cons p ps ih =>
    have hlt : ∀ e ∈ s.tasks_, e.1 < s.index_ + 1 := fun e he => Nat.lt_succ_of_le (hs e he)
    have hmap := map_insert_above (p.1, p.2.2, p.2.1) hlt
    have hstep : (task.apply behave s (Op.push p.1 p.2.1 p.2.2 : Op I O H)).state =
        ⟨s.index_ + 1, s.progress_, s.tasks_ ++ [(s.index_ + 1, p.1, p.2.2, p.2.1)]⟩ := by
      simp only [task.apply, task.push, hmap]
    have hnext : ∀ e ∈ s.tasks_ ++ [(s.index_ + 1, p.1, p.2.2, p.2.1)], e.1 ≤ s.index_ + 1 := by
      intro e he
      rcases List.mem_append.mp he with h1 | h1
      · exact le_of_lt (hlt e h1)
      · simp only [List.mem_singleton] at h1
        simp [h1]
    have ih' := ih ⟨s.index_ + 1, s.progress_,
      s.tasks_ ++ [(s.index_ + 1, p.1, p.2.2, p.2.1)]⟩ hnext
    unfold push_ops at ih' ⊢
    simp only [List.map_cons, task.final, hstep, ih', records_from, List.length_cons,
      List.append_assoc, List.singleton_append]
    congr 1
    omega

theorem front_at_head (n p k : Nat) (r : Record I H) (tl : TaskMap I H) (hp : p ≤ k) :
    (task.front ⟨n, p, (k, r) :: tl⟩ : Result I O H (Option (Nat × I))) =
      ⟨⟨n, k, (k, r) :: tl⟩, [], some (k, r.1)⟩ := by
  simp [task.front, map_lower_bound, List.find?_cons, hp]

theorem front_at_second (n p k k' : Nat) (r r' : Record I H) (tl : TaskMap I H)
    (hk : k < p) (hp : p ≤ k') :
    (task.front ⟨n, p, (k, r) :: (k', r') :: tl⟩ : Result I O H (Option (Nat × I))) =
      ⟨⟨n, k', (k, r) :: (k', r') :: tl⟩, [], some (k', r'.1)⟩ := by
  have hnot : ¬ p ≤ k := by omega
  simp [task.front, map_lower_bound, List.find?_cons, hp, hnot]

theorem trace_fronts [Inhabited O] (behave : H → O → Completion) (n p k : Nat)
    (r : Record I H) (tl : TaskMap I H) (hp : p ≤ k) (m : Nat) :
    (∀ st ∈ task.trace behave ⟨n, p, (k, r) :: tl⟩ (List.replicate m (Op.front : Op I O H)),
      st.ret = Ret.view (some (k, r.1))) ∧
    task.final behave ⟨n, p, (k, r) :: tl⟩ (List.replicate (m + 1) (Op.front : Op I O H)) =
      ⟨n, k, (k, r) :: tl⟩ := by
  induction m generalizing p with
  | zero =>
    constructor
    · simp [task.trace]
    · simp only [List.replicate, task.final, task.apply, front_at_head n p k r tl hp]
  | succ m ih =>
    obtain ⟨ih1, ih2⟩ := ih k (le_refl k)
    constructor
    · intro st hst
      simp only [List.replicate, task.trace, task.apply, front_at_head n p k r tl hp,
        List.mem_cons] at hst
      rcases hst with hst | hst
      · rw [hst]
      · exact ih1 st hst
    · rw [List.replicate_succ]
      simp only [task.final, task.apply, front_at_head n p k r tl hp]
      exact ih2

end Retrieval

/-- Claim C10 (ordered retrieval).  On a freshly constructed registry, after
two or more pushes and nothing else, every one of any number of consecutive
front calls returns id 1 with the input of the first push; and when one or
more such front calls are followed by exactly one step, the next front
returns id 2 with the input of the second push while the record of id 1 is
still in the map. -/
theorem ordered_retrieval {I O H : Type} [Inhabited O] (behave : H → O → Completion)
    (a b : I × Nat × H) (rest : List (I × Nat × H)) (m : Nat) :
    (∀ st ∈ task.trace behave (task.final behave task.fresh (push_ops (a :: b :: rest)))
        (List.replicate m (Op.front : Op I O H)),
      st.ret = Ret.view (some (1, a.1))) ∧
    (task.front (task.final behave task.fresh
        (push_ops (a :: b :: rest) ++ List.replicate (m + 1) Op.front ++ [Op.step])) :
      Result I O H (Option (Nat × I))).ret = some (2, b.1) ∧
    (1, a.1, a.2.2, a.2.1) ∈ (task.front (task.final behave task.fresh
        (push_ops (a :: b :: rest) ++ List.replicate (m + 1) Op.front ++ [Op.step])) :
      Result I O H (Option (Nat × I))).state.tasks_ := by
  have hpush : task.final behave (task.fresh : task I H) (push_ops (a :: b :: rest)) =
      ⟨(a :: b :: rest).length, 0,
        (1, a.1, a.2.2, a.2.1) :: (2, b.1, b.2.2, b.2.1) :: records_from 3 rest⟩ := by
    rw [final_pushes behave (task.fresh : task I H) (a :: b :: rest)
      (fun e he => by simp [task.fresh] at he)]
    simp [task.fresh, records_from]
  have hfronts := trace_fronts behave (a :: b :: rest).length 0 1 (a.1, a.2.2, a.2.1)
    ((2, b.1, b.2.2, b.2.1) :: records_from 3 rest) (Nat.zero_le 1) m
  have hfinal : task.final behave (task.fresh : task I H)
      (push_ops (a :: b :: rest) ++ List.replicate (m + 1) Op.front ++ [Op.step]) =
      ⟨(a :: b :: rest).length, 2,
        (1, a.1, a.2.2, a.2.1) :: (2, b.1, b.2.2, b.2.1) :: records_from 3 rest⟩ := by
    rw [final_append, final_append, hpush, hfronts.2]
    simp [task.final, task.apply, task.step]
  refine ⟨?_, ?_, ?_⟩
  · rw [hpush]
    exact hfronts.1
  · rw [hfinal, front_at_second _ _ _ _ _ _ _ (by omega) (by omega)]
  · rw [hfinal, front_at_second _ _ _ _ _ _ _ (by omega) (by omega)]
    exact List.mem_cons_self _ _

/-! ## The sample run -/

/-- The sample registry is the state reached by the sample run. -/
theorem sample_run_final :
    task.final sample_behave task.fresh sample_run = sample_registry := by
  decide

/-- In the sample run the pushes return 1, 2, 3, the worker is woken by the
first push only, and the handler of id 2 is the only one called. -/
theorem sample_run_trace :
    pushed_ids (task.trace sample_behave task.fresh sample_run) = [1, 2, 3] ∧
    (task.trace sample_behave task.fresh sample_run).map (fun st => st.events) =
      [[Event.worker], [], [], [], [Event.handler 2 "h2" 7], []] ∧
    total_calls 2 (task.trace sample_behave task.fresh sample_run) = 1 ∧
    total_calls 1 (task.trace sample_behave task.fresh sample_run) = 0 := by
  decide

/-! ## The cursor -/

section Cursor

variable {I O H : Type}

theorem front_ret {s : task I H} {v : Nat × I}
    (h : (task.front s : Result I O H (Option (Nat × I))).ret = some v) :
    s.progress_ ≤ v.1 ∧
    (task.front s : Result I O H (Option (Nat × I))).state.progress_ = v.1 ∧
    ∃ e ∈ s.tasks_, e.1 = v.1 ∧ e.2.1 = v.2 := by
  unfold task.front at h ⊢
  cases hlb : map_lower_bound s.tasks_ s.progress_ with
  | none => simp [hlb] at h
  | some e =>
    simp only [hlb, Option.some.injEq] at h ⊢
    unfold map_lower_bound at hlb
    have hmem := List.mem_of_find?_eq_some hlb
    have hp : s.progress_ ≤ e.1 := by simpa using List.find?_some hlb
    subst h
    exact ⟨hp, rfl, e, hmem, rfl, rfl⟩

theorem front_progress_le (s : task I H) :
    s.progress_ ≤ (task.front s : Result I O H (Option (Nat × I))).state.progress_ := by
  cases hr : (task.front s : Result I O H (Option (Nat × I))).ret with
  | some v =>
    obtain ⟨h1, h2, _⟩ := front_ret hr
    omega
  | none =>
    unfold task.front at hr ⊢
    cases hlb : map_lower_bound s.tasks_ s.progress_ with
    | none => simp
    | some e => simp [hlb] at hr

theorem apply_progress_le [Inhabited O] (behave : H → O → Completion) (s : task I H)
    (op : Op I O H) : s.progress_ ≤ (task.apply behave s op).state.progress_ := by
  cases op with
  | push input t h => simp [task.apply, task.push]
  | front => simp only [task.apply]; exact front_progress_le s
  | step => simp [task.apply, task.step]
  | cancel id =>
    simp only [task.apply]
    by_cases h0 : id = 0
    · simp [task.cancel, h0]
    · rw [cancel_state s id h0]
  | respond id payload => simp only [task.apply]; rw [respond_state]
  | expired id ec =>
    simp only [task.apply, task.on_expired]
    cases ec
    · simp only [Bool.not_false, if_true]; rw [respond_state]
    · simp

theorem final_progress_le [Inhabited O] (behave : H → O → Completion) (s : task I H)
    (ops : List (Op I O H)) : s.progress_ ≤ (task.final behave s ops).progress_ := by
  induction ops generalizing s with
  | nil => exact le_refl _
  | cons op ops ih => exact le_trans (apply_progress_le behave s op) (ih _)

end Cursor

section Removed

variable {I O H : Type}

end Removed

/-- Counterexample for C15 as stated: id 1 is pending in the sample registry,
its handler fails by throwing an object that is not a `std::exception`, and
`respond` does not return normally: the exception leaves it. -/
theorem callback_failure_escapes :
    (1, "a", "h1", 5) ∈ sample_registry.tasks_ ∧
    sample_raise "h1" 9 ≠ Completion.returns ∧
    ¬ (task.respond sample_raise sample_registry 1 9).ret = Exit.returned := by
  decide

/-- Claim C15, amended (callback failure).  In a registry whose map is in key
order and which holds a record under `id`: when the stored handler fails by
throwing a `std::exception`, `respond(id, payload)` returns normally, having
called the handler once and written one line to `std::cerr`; when it throws
anything else, the exception leaves `respond` after the single call.  In
every case the handler is called exactly once (no retry), no record is
stored under `id` afterwards (removed, not re-inserted), and the state is the
one a `respond` with any other handler behaviour, a succeeding one included,
leaves. -/
theorem callback_failure_contained {I O H : Type} (behave : H → O → Completion)
    (s : task I H) (id : Nat) (payload : O) (input : I) (handler : H) (timer : Nat)
    (hord : map_ordered s.tasks_) (hmem : (id, input, handler, timer) ∈ s.tasks_) :
    (∀ what, behave handler payload = Completion.throws_std what →
      (task.respond behave s id payload).ret = Exit.returned ∧
      (task.respond behave s id payload).events =
        [Event.handler id handler payload, Event.cerr ("Error: " ++ what)]) ∧
    (behave handler payload = Completion.throws_other →
      (task.respond behave s id payload).ret = Exit.propagated ∧
      (task.respond behave s id payload).events = [Event.handler id handler payload]) ∧
    calls_of id (task.respond behave s id payload).events = 1 ∧
    (∀ e ∈ (task.respond behave s id payload).state.tasks_, e.1 ≠ id) ∧
    (∀ succeed : H → O → Completion,
      (task.respond behave s id payload).state = (task.respond succeed s id payload).state) ∧
    (task.respond behave s id payload).state =
      ⟨s.index_, s.progress_, s.tasks_.filter (fun e => e.1 != id)⟩ := by
  have hf := map_find_of_mem hord hmem
  refine ⟨?_, ?_, ?_, ?_, ?_, ?_⟩
  · intro what hw
    unfold task.respond
    simp [hf, hw]
  · intro hw
    unfold task.respond
    simp [hf, hw]
  · rw [respond_calls]
    simp [hf]
  · rw [respond_state]
    exact fun e he => (mem_map_erase.mp he).2
  · intro succeed
    rw [respond_state, respond_state]
  · rw [respond_state]
    rfl

/-- Witness for C15 amended: the handler of id 3 of the sample registry throws
a `std::exception`; `respond` logs it and returns. -/
theorem callback_failure_contained_witness :
    map_ordered sample_registry.tasks_ ∧ (3, "c", "h3", 5) ∈ sample_registry.tasks_ ∧
    sample_behave "h3" 9 = Completion.throws_std "boom" ∧
    (task.respond sample_behave sample_registry 3 9).ret = Exit.returned ∧
    (task.respond sample_behave sample_registry 3 9).events =
      [Event.handler 3 "h3" 9, Event.cerr ("Error: " ++ "boom")] :=
  ⟨by decide, by decide, by decide,
    (callback_failure_contained sample_behave sample_registry 3 9 "c" "h3" 5 (by decide)
      (by decide)).1 "boom" (by decide)⟩

/-! ## Draining the backlog -/

section Drain

variable {I H : Type}

end Drain

section Reentrant

variable {I O H : Type}

theorem respond_absent (behave : H → O → Completion) (t : task I H) (id : Nat) (payload : O)
    (habs : ∀ e ∈ t.tasks_, e.1 ≠ id) :
    task.respond behave t id payload = ⟨t, [], Exit.returned⟩ := by
  unfold task.respond
  simp [map_find_none.mpr habs]

theorem cancel_absent (t : task I H) (id : Nat) (habs : ∀ e ∈ t.tasks_, e.1 ≠ id) :
    (task.cancel t id : Result I O H Nat).state = t ∧
    (task.cancel t id : Result I O H Nat).events = [] := by
  unfold task.cancel
  by_cases h0 : id = 0 <;> simp [h0, map_find_none.mpr habs]

theorem respond_reentrant_plain [Inhabited O] (behave : H → O → Completion) (s : task I H)
    (id : Nat) (payload : O) :
    task.respond_reentrant behave (fun _ _ => []) s id payload =
      task.respond behave s id payload := by
  unfold task.respond_reentrant task.respond task.respond_locked
  cases map_find s.tasks_ id with
  | none => rfl
  | some e =>
    simp only [task.final, task.trace, run_events]
    cases behave e.2.2.1 payload <;> rfl

end Reentrant

/-! ## The worker protocol -/

section Protocol

variable {I O H : Type}

end Protocol

section Triggers

variable {I O H : Type}

theorem trigger_removes [Inhabited O] (behave : H → O → Completion) (s : task I H)
    (op : Op I O H) (id : Nat) (h0 : id ≠ 0) (hop : targets id op = true) :
    (task.apply behave s op).state = ⟨s.index_, s.progress_, map_erase s.tasks_ id⟩ := by
  cases op with
  | push input t h => simp [targets] at hop
  | front => simp [targets] at hop
  | step => simp [targets] at hop
  | cancel k =>
    have hk : k = id := by simpa [targets] using hop
    subst hk
    simp only [task.apply]
    exact cancel_state s k h0
  | respond k payload =>
    have hk : k = id := by simpa [targets] using hop
    subst hk
    simp only [task.apply]
    exact respond_state behave s k payload
  | expired k ec =>
    have hk : k = id ∧ ec = false := by simpa [targets] using hop
    obtain ⟨hk, hec⟩ := hk
    subst hk
    subst hec
    simp only [task.apply, task.on_expired, Bool.not_false, if_true]
    exact respond_state behave s k default

theorem trigger_on_absent [Inhabited O] (behave : H → O → Completion) (t : task I H)
    (op : Op I O H) (id : Nat) (hop : targets id op = true)
    (habs : ∀ e ∈ t.tasks_, e.1 ≠ id) :
    (task.apply behave t op).state = t ∧ (task.apply behave t op).events = [] := by
  cases op with
  | push input tm h => simp [targets] at hop
  | front => simp [targets] at hop
  | step => simp [targets] at hop
  | cancel k =>
    have hk : k = id := by simpa [targets] using hop
    subst hk
    simp only [task.apply]
    exact cancel_absent t k habs
  | respond k payload =>
    have hk : k = id := by simpa [targets] using hop
    subst hk
    simp [task.apply, respond_absent behave t k payload habs]
  | expired k ec =>
    have hk : k = id ∧ ec = false := by simpa [targets] using hop
    obtain ⟨hk, hec⟩ := hk
    subst hk
    subst hec
    simp [task.apply, task.on_expired, respond_absent behave t k default habs]

/-- When triggers aimed at a pending id are taken one after the other, the
first removes the record and every later one finds the id absent: it leaves
the state as it is and calls nothing. -/
theorem first_trigger_wins [Inhabited O] (behave : H → O → Completion) (s : task I H)
    (id : Nat) (first : Op I O H) (later : List (Op I O H)) (h0 : id ≠ 0)
    (hfirst : targets id first = true) (hlater : ∀ op ∈ later, targets id op = true) :
    (∀ e ∈ (task.apply behave s first).state.tasks_, e.1 ≠ id) ∧
    task.final behave (task.apply behave s first).state later =
      (task.apply behave s first).state ∧
    run_events (task.trace behave (task.apply behave s first).state later) = [] := by
  have habs : ∀ e ∈ (task.apply behave s first).state.tasks_, e.1 ≠ id := by
    rw [trigger_removes behave s first id h0 hfirst]
    exact fun e he => (mem_map_erase.mp he).2
  refine ⟨habs, ?_, ?_⟩
  · induction later with
    | nil => rfl
    | cons op ops ih =>
      have h1 := trigger_on_absent behave _ op id (hlater op (List.mem_cons_self _ _)) habs
      simp only [task.final, h1.1]
      exact ih (fun o ho => hlater o (List.mem_cons_of_mem _ ho))
  · induction later with
    | nil => rfl
    | cons op ops ih =>
      have h1 := trigger_on_absent behave _ op id (hlater op (List.mem_cons_self _ _)) habs
      simp only [task.trace, run_events, h1.1, h1.2, List.nil_append]
      exact ih (fun o ho => hlater o (List.mem_cons_of_mem _ ho))

end Triggers

/-! ## The machine transitions: wrap-around and the worker's exit -/

section Machine

variable {I O H : Type}

theorem increment_below {max n : Nat} (h : n < max) : machine.increment max n = n + 1 := by
  unfold machine.increment
  exact Nat.mod_eq_of_lt (by omega)

theorem increment_at_max (max : Nat) : machine.increment max max = 0 := by
  unfold machine.increment
  exact Nat.mod_self _

theorem machine_push_state (max : Nat) (wake : Nat → Completion) (s : task I H) (input : I)
    (timeout : Nat) (handler : H) :
    (machine.push max wake s input timeout handler : Result I O H (Option Nat)).state =
      ⟨machine.increment max s.index_, s.progress_,
        map_insert s.tasks_ (machine.increment max s.index_) (input, handler, timeout)⟩ := by
  unfold machine.push
  cases s.tasks_.isEmpty
  · simp
  · simp only [if_true]
    cases wake (machine.increment max s.index_) <;> rfl

theorem machine_push_events (max : Nat) (wake : Nat → Completion) (s : task I H) (input : I)
    (timeout : Nat) (handler : H) :
    (machine.push max wake s input timeout handler : Result I O H (Option Nat)).events =
      if s.tasks_.isEmpty then [Event.worker] else [] := by
  unfold machine.push
  cases s.tasks_.isEmpty
  · simp
  · simp only [if_true]
    cases wake (machine.increment max s.index_) <;> rfl

theorem machine_push_ret (max : Nat) (wake : Nat → Completion) (s : task I H) (input : I)
    (timeout : Nat) (handler : H) :
    (machine.push max wake s input timeout handler : Result I O H (Option Nat)).ret =
      if s.tasks_.isEmpty = false ∨ wake (machine.increment max s.index_) = Completion.returns
      then some (machine.increment max s.index_) else none := by
  unfold machine.push
  cases s.tasks_.isEmpty
  · simp
  · simp only [if_true]
    cases wake (machine.increment max s.index_) <;> simp

/-- Below `SIZE_MAX`, and when the worker call (if any) returns, the machine
`push` does what `task.push` does. -/
theorem machine.push_agrees (max : Nat) (wake : Nat → Completion) (s : task I H) (input : I)
    (timeout : Nat) (handler : H) (hmax : s.index_ < max)
    (hwake : s.tasks_.isEmpty = false ∨ wake (s.index_ + 1) = Completion.returns) :
    (machine.push max wake s input timeout handler : Result I O H (Option Nat)) =
      ⟨(task.push s input timeout handler : Result I O H Nat).state,
        (task.push s input timeout handler : Result I O H Nat).events,
        some (task.push s input timeout handler : Result I O H Nat).ret⟩ := by
  have hinc := increment_below hmax
  have h1 : (machine.push max wake s input timeout handler :
      Result I O H (Option Nat)).state = _ := machine_push_state max wake s input timeout handler
  have h2 : (machine.push max wake s input timeout handler :
      Result I O H (Option Nat)).events = _ := machine_push_events max wake s input timeout handler
  have h3 : (machine.push max wake s input timeout handler :
      Result I O H (Option Nat)).ret = _ := machine_push_ret max wake s input timeout handler
  rw [hinc] at h1 h3
  rw [if_pos hwake] at h3
  cases hr : (machine.push max wake s input timeout handler : Result I O H (Option Nat)) with
  | mk st ev rt =>
    rw [hr] at h1 h2 h3
    simp only at h1 h2 h3
    subst h1; subst h2; subst h3
    rfl

/-- Below `SIZE_MAX` the machine `step` does what `task.step` does. -/
theorem machine.step_agrees (max : Nat) (s : task I H) (hmax : s.progress_ < max) :
    (machine.step max s : Result I O H Unit) = task.step s := by
  unfold machine.step task.step
  rw [increment_below hmax]

theorem machine_apply_progress [Inhabited O] (max : Nat) (wake : Nat → Completion)
    (behave : H → O → Completion) (s : task I H) (op : Op I O H) :
    (machine.apply max wake behave s op).state.progress_ =
      match op with
      | Op.step => machine.increment max s.progress_
      | Op.front => (task.front s : Result I O H (Option (Nat × I))).state.progress_
      | _ => s.progress_ := by
  cases op with
  | push input t h =>
    simp only [machine.apply]
    have h1 : (machine.push max wake s input t h : Result I O H (Option Nat)).state = _ :=
      machine_push_state max wake s input t h
    cases hr : (machine.push max wake s input t h : Result I O H (Option Nat)).ret <;>
      simp only [hr, h1]
  | front => simp [machine.apply]
  | step => simp [machine.apply, machine.step]
  | cancel id =>
    simp only [machine.apply]
    by_cases h0 : id = 0
    · simp [task.cancel, h0]
    · rw [cancel_state s id h0]
  | respond id payload => simp only [machine.apply]; rw [respond_state]
  | expired id ec =>
    simp only [machine.apply, task.on_expired]
    cases ec
    · simp only [Bool.not_false, if_true]; rw [respond_state]
    · simp

theorem machine_apply_progress_le [Inhabited O] (max : Nat) (wake : Nat → Completion)
    (behave : H → O → Completion) (s : task I H) (op : Op I O H)
    (h : op = Op.step → s.progress_ < max) :
    s.progress_ ≤ (machine.apply max wake behave s op).state.progress_ := by
  rw [machine_apply_progress]
  cases op with
  | step =>
    simp only
    rw [increment_below (h rfl)]
    omega
  | front => exact front_progress_le s
  | push input t hd => exact le_refl _
  | cancel id => exact le_refl _
  | respond id payload => exact le_refl _
  | expired id ec => exact le_refl _

theorem machine_final_progress_le [Inhabited O] (max : Nat) (wake : Nat → Completion)
    (behave : H → O → Completion) (s : task I H) (ops : List (Op I O H))
    (h : machine.cursor_wraps max wake behave s ops = false) :
    s.progress_ ≤ (machine.final max wake behave s ops).progress_ := by
  induction ops generalizing s with
  | nil => exact le_refl _
  | cons op ops ih =>
    simp only [machine.cursor_wraps, Bool.or_eq_false_iff] at h
    have hstep : op = Op.step → s.progress_ < max := by
      intro hop
      subst hop
      have := h.1
      simp only [decide_eq_false_iff_not] at this
      omega
    exact le_trans (machine_apply_progress_le max wake behave s op hstep) (ih _ h.2)

end Machine

/-- Counterexample for C13 as stated: with the cursor at `SIZE_MAX`, a step
takes `progress_` to 0, below its value before. -/
theorem cursor_decreases_at_max :
    sample_at_max.progress_ = SIZE_MAX_64 ∧
    (machine.apply SIZE_MAX_64 sample_wake sample_behave sample_at_max Op.step).state.progress_
      = 0 ∧
    ¬ (sample_at_max.progress_ ≤
      (machine.apply SIZE_MAX_64 sample_wake sample_behave sample_at_max
        Op.step).state.progress_) := by
  decide

/-- Claim C13, amended (cursor monotonicity).  For every registry state and
every call other than a step taken with the cursor at `SIZE_MAX`,
`progress_` after the call is at least its value before: this holds for
every call when the cursor is below `SIZE_MAX`, and for every call that is
not a step in any state.  Hence along every sequence of calls in which no
step is taken with the cursor at `SIZE_MAX`, `progress_` never decreases. -/
theorem cursor_monotone_unless_wrap {I O H : Type} [Inhabited O] (max : Nat)
    (wake : Nat → Completion) (behave : H → O → Completion) (s : task I H) :
    (∀ op : Op I O H, s.progress_ < max →
      s.progress_ ≤ (machine.apply max wake behave s op).state.progress_) ∧
    (∀ op : Op I O H, op ≠ Op.step →
      s.progress_ ≤ (machine.apply max wake behave s op).state.progress_) ∧
    (∀ ops : List (Op I O H), machine.cursor_wraps max wake behave s ops = false →
      s.progress_ ≤ (machine.final max wake behave s ops).progress_) :=
  ⟨fun op h => machine_apply_progress_le max wake behave s op (fun _ => h),
    fun op h => machine_apply_progress_le max wake behave s op (fun hop => absurd hop h),
    fun ops h => machine_final_progress_le max wake behave s ops h⟩

/-- Witness for C13 amended: a run with two steps on the sample registry does
not wrap, and the cursor ends at or above its start. -/
theorem cursor_monotone_unless_wrap_witness :
    machine.cursor_wraps SIZE_MAX_64 sample_wake sample_behave sample_registry sample_steps
      = false ∧
    sample_registry.progress_ ≤
      (machine.final SIZE_MAX_64 sample_wake sample_behave sample_registry
        sample_steps).progress_ :=
  ⟨by decide,
    (cursor_monotone_unless_wrap SIZE_MAX_64 sample_wake sample_behave sample_registry).2.2
      sample_steps (by decide)⟩

/-- Counterexample for C14 as stated: with the cursor at `SIZE_MAX`, step does
not add one to `progress_`; it sets it to 0. -/
theorem step_wraps_at_max :
    sample_at_max.progress_ = SIZE_MAX_64 ∧
    (machine.step SIZE_MAX_64 sample_at_max : Result String Nat String Unit).state.progress_
      = 0 ∧
    ¬ ((machine.step SIZE_MAX_64 sample_at_max : Result String Nat String Unit).state.progress_
      = sample_at_max.progress_ + 1) := by
  decide

/-- Claim C14, amended (postcondition of step).  In every registry state, step
changes `progress_` only: the pending records (the one the cursor was on
included) and `index_` are as before, no handler and no worker is called, and
it returns, whatever the map contains.  When the cursor is below `SIZE_MAX`
it adds exactly one to `progress_`; at `SIZE_MAX` it sets it to 0. -/
theorem step_postcondition_below_max {I O H : Type} [Inhabited O] (max : Nat)
    (wake : Nat → Completion) (behave : H → O → Completion) (s : task I H) :
    (s.progress_ < max →
      (machine.step max s : Result I O H Unit).state.progress_ = s.progress_ + 1) ∧
    (s.progress_ = max → (machine.step max s : Result I O H Unit).state.progress_ = 0) ∧
    (machine.step max s : Result I O H Unit).state.tasks_ = s.tasks_ ∧
    (machine.step max s : Result I O H Unit).state.index_ = s.index_ ∧
    (machine.step max s : Result I O H Unit).events = [] ∧
    (machine.apply max wake behave s (Op.step : Op I O H)).state =
      (machine.step max s : Result I O H Unit).state ∧
    (machine.apply max wake behave s (Op.step : Op I O H)).events = [] ∧
    (machine.apply max wake behave s (Op.step : Op I O H)).ret = Ret.unit ∧
    (∀ e ∈ s.tasks_, e.1 = s.progress_ →
      e ∈ (machine.step max s : Result I O H Unit).state.tasks_) := by
  refine ⟨?_, ?_, rfl, rfl, rfl, rfl, rfl, rfl, fun _ he _ => he⟩
  · intro h
    simp only [machine.step]
    exact increment_below h
  · intro h
    simp only [machine.step, h]
    exact increment_at_max max

/-- Witness for C14 amended: a step on the sample registry moves the cursor
from 2 to 3 and keeps both records. -/
theorem step_postcondition_below_max_witness :
    sample_registry.progress_ < SIZE_MAX_64 ∧
    (machine.step SIZE_MAX_64 sample_registry : Result String Nat String Unit).state.progress_
      = sample_registry.progress_ + 1 ∧
    (machine.step SIZE_MAX_64 sample_registry : Result String Nat String Unit).state.tasks_
      = sample_registry.tasks_ :=
  ⟨by decide,
    (step_postcondition_below_max SIZE_MAX_64 sample_wake sample_behave sample_registry).1
      (by decide),
    (step_postcondition_below_max SIZE_MAX_64 sample_wake sample_behave
      sample_registry).2.2.1⟩

/-- Counterexample for C9 as stated.  On a freshly constructed registry with a
worker that throws, `push` inserts the record and is then left by the
exception: no id is returned.  And in a registry whose counter stands at
`SIZE_MAX` (its pending id 1 does not exceed the counter), `push` returns the
sentinel 0, not the previous counter plus one, and the new record goes in
front of the pending one. -/
theorem push_returns_no_next_id :
    (machine.push SIZE_MAX_64 sample_wake_throws (task.fresh : task String String) "a" 5 "h1" :
      Result String Nat String (Option Nat)).ret = none ∧
    (machine.push SIZE_MAX_64 sample_wake_throws (task.fresh : task String String) "a" 5 "h1" :
      Result String Nat String (Option Nat)).state = ⟨1, 0, [(1, "a", "h1", 5)]⟩ ∧
    (∀ e ∈ sample_at_max.tasks_, e.1 ≤ sample_at_max.index_) ∧
    (machine.push SIZE_MAX_64 sample_wake sample_at_max "b" 5 "h2" :
      Result String Nat String (Option Nat)).ret = some 0 ∧
    ¬ ((machine.push SIZE_MAX_64 sample_wake sample_at_max "b" 5 "h2" :
      Result String Nat String (Option Nat)).ret = some (sample_at_max.index_ + 1)) ∧
    (machine.push SIZE_MAX_64 sample_wake sample_at_max "b" 5 "h2" :
      Result String Nat String (Option Nat)).state.tasks_ =
        [(0, "b", "h2", 5), (1, "a", "h1", 5)] := by
  decide

/-- Claim C9, amended (postcondition of push).  In a registry whose pending ids
do not exceed the id counter and whose counter is below `SIZE_MAX`,
`push(input, timeout, handler)` sets `index_` to the previous counter plus
one; the map afterwards is the previous map followed by one new record under
that id, holding the given input and handler, so the number of pending tasks
grows by exactly one and no existing record is touched; `progress_` is
unchanged and no handler is called.  When the map was not empty, or the
worker call returns, push returns that id; when the map was empty and the
worker call throws, the exception leaves push after the insertion and no id
is returned. -/
theorem push_postcondition_below_max {I O H : Type} (max : Nat) (wake : Nat → Completion)
    (s : task I H) (input : I) (timeout : Nat) (handler : H)
    (hs : ∀ e ∈ s.tasks_, e.1 ≤ s.index_) (hmax : s.index_ < max) :
    (machine.push max wake s input timeout handler : Result I O H (Option Nat)).state.index_ =
      s.index_ + 1 ∧
    (machine.push max wake s input timeout handler : Result I O H (Option Nat)).state.tasks_ =
      s.tasks_ ++ [(s.index_ + 1, input, handler, timeout)] ∧
    (∀ e ∈ s.tasks_, e.1 ≠ s.index_ + 1) ∧
    (machine.push max wake s input timeout handler :
      Result I O H (Option Nat)).state.tasks_.length = s.tasks_.length + 1 ∧
    (machine.push max wake s input timeout handler : Result I O H (Option Nat)).state.progress_ =
      s.progress_ ∧
    (∀ k, calls_of k
      (machine.push max wake s input timeout handler : Result I O H (Option Nat)).events = 0) ∧
    (s.tasks_.isEmpty = false ∨ wake (s.index_ + 1) = Completion.returns →
      (machine.push max wake s input timeout handler : Result I O H (Option Nat)).ret =
        some (s.index_ + 1)) ∧
    (s.tasks_.isEmpty = true → wake (s.index_ + 1) ≠ Completion.returns →
      (machine.push max wake s input timeout handler : Result I O H (Option Nat)).ret =
        none) := by
  have hinc := increment_below hmax
  have hlt : ∀ e ∈ s.tasks_, e.1 < s.index_ + 1 := fun e he => Nat.lt_succ_of_le (hs e he)
  have hmap := map_insert_above (input, handler, timeout) hlt
  have hst : (machine.push max wake s input timeout handler :
      Result I O H (Option Nat)).state = _ := machine_push_state max wake s input timeout handler
  have hev : (machine.push max wake s input timeout handler :
      Result I O H (Option Nat)).events = _ := machine_push_events max wake s input timeout handler
  have hrt : (machine.push max wake s input timeout handler :
      Result I O H (Option Nat)).ret = _ := machine_push_ret max wake s input timeout handler
  rw [hinc] at hst hrt
  rw [hmap] at hst
  refine ⟨by rw [hst], by rw [hst], fun e he => Nat.ne_of_lt (hlt e he), ?_, by rw [hst],
    ?_, ?_, ?_⟩
  · rw [hst]
    simp
  · intro k
    rw [hev]
    cases s.tasks_.isEmpty <;> simp [calls_of]
  · intro h
    rw [hrt, if_pos h]
  · intro h1 h2
    rw [hrt, if_neg]
    simp [h1, h2]

/-- Witness for C9 amended: pushing a task to the sample registry. -/
theorem push_postcondition_below_max_witness :
    (∀ e ∈ sample_registry.tasks_, e.1 ≤ sample_registry.index_) ∧
    sample_registry.index_ < SIZE_MAX_64 ∧
    (machine.push SIZE_MAX_64 sample_wake_throws sample_registry "d" 1 "h4" :
      Result String Nat String (Option Nat)).state.tasks_ =
        sample_registry.tasks_ ++ [(sample_registry.index_ + 1, "d", "h4", 1)] ∧
    (machine.push SIZE_MAX_64 sample_wake_throws sample_registry "d" 1 "h4" :
      Result String Nat String (Option Nat)).ret = some (sample_registry.index_ + 1) :=
  ⟨by decide, by decide,
    (push_postcondition_below_max SIZE_MAX_64 sample_wake_throws sample_registry "d" 1 "h4"
      (by decide) (by decide)).2.1,
    (push_postcondition_below_max SIZE_MAX_64 sample_wake_throws sample_registry "d" 1 "h4"
      (by decide) (by decide)).2.2.2.2.2.2.1 (Or.inl (by decide))⟩

/-! ## Ids returned by push -/

section ReturnedIds

variable {I O H : Type}

end ReturnedIds

